import Mathlib

/-!
Shallow embedding of `NystromD`, the dimension-subsampled Nystrom estimator
for kernel exponential-family density models
(`src/shogun/distributions/kernel_exp_family/impl/NystromD.cpp`).

Modelling conventions:
- `float64_t` values are embedded as `ℚ` (exact arithmetic over the same
  field operations the code performs; all claims here are structural, not
  about rounding).
- `index_t` values appearing in the claims are non-negative, so they are
  embedded as `ℕ`.
- `SGVector` reads are by position; a read past the end of the vector
  (which is undefined behaviour in the C++) is modelled by `List.getD`
  with default `0`.
- Matrices (`SGMatrix`) are modelled as functions from (row, col) to the
  entry the loops of the source assign there; boolean masks keep their
  shape data since the code reads `num_rows`/`num_cols`.
- The kernel service (`kernel::Base`) is an external collaborator; it is
  embedded as a record of uninterpreted functions with the arities the
  source calls use.  `dx_i_dx_j_component(a, idx_test, i)` returns a
  vector indexed by `j`, embedded as a function of the extra index `j`;
  `dx_i_dx_j_dx_k_dot_vec_component` takes the beta slice as a function.
-/

namespace NystromDImpl

/-- External kernel service: the derivative contractions `NystromD` consumes,
as uninterpreted functions (`kernel/Base.h` collaborator). -/
structure KernelService where
  dx_component : ℕ → ℕ → ℕ → ℚ
  dx_dy_component : ℕ → ℕ → ℕ → ℕ → ℚ
  dx_dy_dy_component : ℕ → ℕ → ℕ → ℕ → ℚ
  dx_i_dx_j_component : ℕ → ℕ → ℕ → ℕ → ℚ
  dx_i_dx_j_dx_k_dot_vec_component : ℕ → ℕ → (ℕ → ℚ) → ℕ → ℕ → ℚ

/-- Estimator state: the fields of `NystromD` (and of its parent `Nystrom`)
that the claimed operations read.  `D` is `get_num_dimensions()`, `N_basis`
is `get_num_basis()` (number of basis columns), `N_data` is
`get_num_data()`, `basis_inds` is `m_basis_inds`, and `beta` is `m_beta`
read by position. -/
structure EstState where
  D : ℕ
  N_basis : ℕ
  N_data : ℕ
  basis_inds : List ℕ
  beta : ℕ → ℚ

/-- A boolean mask over (dimension × point): `SGMatrix<bool>` with its
shape, entries addressed by flat (column-major) index as in
`basis_mask.matrix[i]`. -/
structure BoolMask where
  num_rows : ℕ
  num_cols : ℕ
  entries : ℕ → Bool

/-- Embedding of `NystromD::idx_to_ai(idx, D)`: flat basis-component index to
(point, dimension), by integer division and remainder. -/
def idx_to_ai (idx D : ℕ) : ℕ × ℕ :=
  (idx / D, idx % D)

/-- Embedding of `NystromD::get_system_size()`: length of `m_basis_inds`. -/
def get_system_size (s : EstState) : ℕ :=
  s.basis_inds.length

/-- Embedding of `CMath::qsort` on an index vector sorts it ascending; the observable
result of sorting a list of natural numbers ascending is modelled by
insertion sort (any correct sort produces the same list). -/
def qsort_inds (l : List ℕ) : List ℕ :=
  l.insertionSort (· ≤ ·)

/-- Embedding of `NystromD::basis_inds_from_mask`: collect every flat index `i` of the
mask with `basis_mask.matrix[i]` true (scanning flat indices in increasing
order over `num_rows * num_cols`), then sort ascending. -/
def basis_inds_from_mask (m : BoolMask) : List ℕ :=
  qsort_inds ((List.range (m.num_rows * m.num_cols)).filter (fun i => m.entries i))

/-- Embedding of `NystromD::get_basis_point_inds`: map each basis component index to its
owning point via `idx_to_ai` and return the distinct owning points in
ascending order (`std::set` insertion then in-order copy, modelled as
sort-then-dedup). -/
def get_basis_point_inds (D : ℕ) (basis_inds : List ℕ) : List ℕ :=
  (qsort_inds (basis_inds.map (fun i => (idx_to_ai i D).1))).dedup

/-- Embedding of `NystromD::set_basis_inds_from_mask`: store the mask-derived index set
in `m_basis_inds`, then compute the diagnostic set difference between all
points `[0, N)` (`N = basis_mask.num_cols`) and the basis point set.  The
returned list is the set of points warned about (`SG_SWARNING` once per
unused point); `m_basis_inds` is the only field written. -/
def set_basis_inds_from_mask (s : EstState) (m : BoolMask) : EstState × List ℕ :=
  let inds := basis_inds_from_mask m
  let basis_point_inds := get_basis_point_inds s.D inds
  let unused := (List.range m.num_cols).filter (fun i => decide (i ∉ basis_point_inds))
  ({ s with basis_inds := inds }, unused)

/-- Embedding of `NystromD::compute_G_mn` as an entry function: entry `(idx_k, idx_l)`
of the `system_size × (N*D)` cross matrix.  `idx_l` maps to the data
(point `a`, dimension `i`); `idx_k` maps through `m_basis_inds` to the
basis (point `b`, dimension `j`); the entry is
`dx_dy_component(b, a, j, i)`. -/
def compute_G_mn (K : KernelService) (s : EstState) (idx_k idx_l : ℕ) : ℚ :=
  let ai := idx_to_ai idx_l s.D
  let bj := idx_to_ai (s.basis_inds.getD idx_k 0) s.D
  K.dx_dy_component bj.1 ai.1 bj.2 ai.2

/-- Embedding of `NystromD::compute_G_mm` as an entry function: both indices map through
`m_basis_inds`, with the same argument-order convention as
`compute_G_mn`. -/
def compute_G_mm (K : KernelService) (s : EstState) (idx_k idx_l : ℕ) : ℚ :=
  let ai := idx_to_ai (s.basis_inds.getD idx_l 0) s.D
  let bj := idx_to_ai (s.basis_inds.getD idx_k 0) s.D
  K.dx_dy_component bj.1 ai.1 bj.2 ai.2

/-- Embedding of `NystromD::subsample_G_mm_from_G_mn`: entry `(idx_k, idx_l)` of the
result selects row `idx_k`, column `m_basis_inds[idx_l]` of the given
`G_mn`. -/
def subsample_G_mm_from_G_mn (s : EstState) (G_mn : ℕ → ℕ → ℚ) (idx_k idx_l : ℕ) : ℚ :=
  G_mn idx_k (s.basis_inds.getD idx_l 0)

/-- Embedding of `NystromD::compute_h` (the live code path): allocates a vector of
length `N_basis * D`, and for each `idx_k` in that range maps
`m_basis_inds[idx_k]` to `(a, i)`, then loops `b` over `[0, N_data * D)`
and the inner index `idx_l` over `[0, N_basis * D)`, adding
`dx_dy_dy_component(a, b, i, j)` (with `j` the dimension of
`m_basis_inds[idx_l]`) only when the owning point of `m_basis_inds[idx_l]`
equals `b`; finally the vector is scaled by `1 / N_data`. -/
def compute_h (K : KernelService) (s : EstState) : List ℚ :=
  let system_size := s.N_basis * s.D
  let ND := s.N_data * s.D
  (List.range system_size).map (fun idx_k =>
    let ai := idx_to_ai (s.basis_inds.getD idx_k 0) s.D
    (((List.range ND).map (fun b =>
      ((List.range system_size).map (fun idx_l =>
        let temp := idx_to_ai (s.basis_inds.getD idx_l 0) s.D
        if temp.1 ≠ b then 0
        else K.dx_dy_dy_component ai.1 b ai.2 temp.2)).sum)).sum) / (s.N_data : ℚ))

/-- Embedding of `NystromD::log_pdf`: starting from `beta_sum = 0`, accumulate
`beta[idx_l] * dx_component(a, idx_test, i)` for `idx_l < system_size`,
with `(a, i) = idx_to_ai(m_basis_inds[idx_l], D)`. -/
def log_pdf (K : KernelService) (s : EstState) (idx_test : ℕ) : ℚ :=
  (List.range (get_system_size s)).foldl
    (fun beta_sum idx_l =>
      let ai := idx_to_ai (s.basis_inds.getD idx_l 0) s.D
      beta_sum + s.beta idx_l * K.dx_component ai.1 idx_test ai.2)
    0

/-- Embedding of `NystromD::grad` as an entry function: entry `p` of the length-D
gradient.  The outer loop visits each active component `idx_l` mapped to
`(a, i)` and subtracts, for every active component `idx_k` whose owning
point `b` equals `a`, `left_arg_hessian[j] * beta[idx_k]` from entry `i`,
where `left_arg_hessian` is the vector `dx_i_dx_j_component(a, idx_test, i)`
indexed by `j`; entry `p` collects exactly the outer iterations with
`i = p`. -/
def grad (K : KernelService) (s : EstState) (idx_test : ℕ) (p : ℕ) : ℚ :=
  ((List.range (get_system_size s)).map (fun idx_l =>
    let ai := idx_to_ai (s.basis_inds.getD idx_l 0) s.D
    if ai.2 = p then
      ((List.range (get_system_size s)).map (fun idx_k =>
        let bj := idx_to_ai (s.basis_inds.getD idx_k 0) s.D
        if ai.1 = bj.1 then
          -(K.dx_i_dx_j_component ai.1 idx_test ai.2 bj.2 * s.beta idx_k)
        else 0)).sum
    else 0)).sum

/-- The body of the loop in `NystromD::get_beta_for_basis_point`: for
position `idx_k`, if the owning point of `m_basis_inds[idx_k]` equals `a`
(the source skips on `a != b`), write `beta[idx_k]` at dimension
`bj.second` of the accumulating slice. -/
def beta_slice_step (s : EstState) (a : ℕ) (beta_a : ℕ → ℚ) (idx_k : ℕ) : ℕ → ℚ :=
  let bj := idx_to_ai (s.basis_inds.getD idx_k 0) s.D
  if a ≠ bj.1 then beta_a else Function.update beta_a bj.2 (s.beta idx_k)

/-- Embedding of `NystromD::get_beta_for_basis_point(a)`: starting from the zero vector
of length D, scan positions `idx_k < system_size` and write `beta[idx_k]`
into the dimension slot of every component owned by point `a`.  The
length-D vector is modelled as a function on dimension indices. -/
def get_beta_for_basis_point (s : EstState) (a : ℕ) : ℕ → ℚ :=
  (List.range (get_system_size s)).foldl (beta_slice_step s a) (fun _ => 0)

/-- Embedding of `NystromD::hessian` as an entry function: entry `(p, r)` of the D×D
matrix.  For each active component `idx_l` mapped to `(a, i)` the source
builds the zero-padded beta slice for point `a` and, for every active
component `idx_k` mapped to `(b, j)` with `b = a`, adds
`dx_i_dx_j_dx_k_dot_vec_component(a, idx_test, beta_a, i, j)` into entry
`(i, j)`; entry `(p, r)` therefore collects exactly the pairs with
`i = p` and `j = r`. -/
def hessian (K : KernelService) (s : EstState) (idx_test : ℕ) (p r : ℕ) : ℚ :=
  ((List.range (get_system_size s)).map (fun idx_l =>
    let ai := idx_to_ai (s.basis_inds.getD idx_l 0) s.D
    if ai.2 = p then
      ((List.range (get_system_size s)).map (fun idx_k =>
        let bj := idx_to_ai (s.basis_inds.getD idx_k 0) s.D
        if ai.1 = bj.1 ∧ bj.2 = r then
          K.dx_i_dx_j_dx_k_dot_vec_component ai.1 idx_test
            (get_beta_for_basis_point s ai.1) ai.2 bj.2
        else 0)).sum
    else 0)).sum

/-- Embedding of `NystromD::hessian_diag` as an entry function: entry `p` of the
length-D diagonal.  For each active component `idx_l` mapped to `(a, i)`,
add `dx_i_dx_j_dx_k_dot_vec_component(a, idx_test, beta_a, i, i)` into
entry `i`; entry `p` collects exactly the iterations with `i = p`. -/
def hessian_diag (K : KernelService) (s : EstState) (idx_test : ℕ) (p : ℕ) : ℚ :=
  ((List.range (get_system_size s)).map (fun idx_l =>
    let ai := idx_to_ai (s.basis_inds.getD idx_l 0) s.D
    if ai.2 = p then
      K.dx_i_dx_j_dx_k_dot_vec_component ai.1 idx_test
        (get_beta_for_basis_point s ai.1) ai.2 ai.2
    else 0)).sum

/-- A concrete kernel service for witnesses: simple arithmetic
contractions, with `dx_dy_component` symmetric in the sense of the kernel
service contract. -/
def exampleKernel : KernelService where
  dx_component := fun a q i => (a : ℚ) + q + i
  dx_dy_component := fun a b i j => (a : ℚ) * b + (i : ℚ) * j
  dx_dy_dy_component := fun _ _ _ _ => 1
  dx_i_dx_j_component := fun a q i j => (a : ℚ) + q + i + j
  dx_i_dx_j_dx_k_dot_vec_component := fun a q v i j => v i + v j + (a : ℚ) + q

/-- A concrete estimator state for witnesses: `D = 2`, two basis points,
two data points, active components `(point 0, dim 0)` and
`(point 1, dim 1)`. -/
def exampleState : EstState where
  D := 2
  N_basis := 2
  N_data := 2
  basis_inds := [0, 3]
  beta := fun k => (k : ℚ) + 1

/-- A concrete estimator state exhibiting the `compute_h` divergence:
`D = 1`, one basis point (point 0 of the data), two data points, full mask
over the basis, so `m_basis_inds = [0]`. -/
def exampleStateH : EstState where
  D := 1
  N_basis := 1
  N_data := 2
  basis_inds := [0]
  beta := fun _ => 0

/-- C3: `idx_to_ai(idx, D)` returns `(idx / D, idx % D)` and the inverse
relation `point * D + dimension = idx` holds, so encoding and decoding
round-trip for every `idx`. -/
theorem idx_to_ai_spec (idx D : ℕ) (_hD : 0 < D) :
    idx_to_ai idx D = (idx / D, idx % D) ∧
      (idx_to_ai idx D).1 * D + (idx_to_ai idx D).2 = idx := by
  refine ⟨rfl, ?_⟩
  have h := Nat.div_add_mod idx D
  simpa [idx_to_ai, Nat.mul_comm] using h

/-- Witness for C3 at `idx = 7`, `D = 3`. -/
theorem idx_to_ai_spec_witness :
    idx_to_ai 7 3 = (7 / 3, 7 % 3) ∧
      (idx_to_ai 7 3).1 * 3 + (idx_to_ai 7 3).2 = 7 :=
  idx_to_ai_spec 7 3 (by decide)

/-- C4: `basis_inds_from_mask` returns exactly the flat indices in
`[0, num_rows * num_cols)` whose mask entry is true — an index is in the
output iff its entry is true — and the output is strictly increasing. -/
theorem basis_inds_from_mask_spec (m : BoolMask) :
    (∀ i, i ∈ basis_inds_from_mask m ↔
      (i < m.num_rows * m.num_cols ∧ m.entries i = true)) ∧
    (basis_inds_from_mask m).Pairwise (· < ·) := by
  have hperm : List.Perm (basis_inds_from_mask m)
      ((List.range (m.num_rows * m.num_cols)).filter (fun i => m.entries i)) :=
    List.perm_insertionSort _ _
  constructor
  · intro i
    rw [hperm.mem_iff]
    simp [List.mem_filter, List.mem_range]
  · have hnd : (basis_inds_from_mask m).Nodup :=
      hperm.nodup_iff.mpr ((List.nodup_range _).filter _)
    have hsorted : (basis_inds_from_mask m).Pairwise (· ≤ ·) :=
      List.sorted_insertionSort _ _
    exact (hsorted.and hnd).imp (fun h => lt_of_le_of_ne h.1 h.2)

/-- C9: `set_basis_inds_from_mask` sets `m_basis_inds` to exactly
`basis_inds_from_mask(mask)`, and the unused-point diagnostic computation
alters neither the index set nor any other estimator state field. -/
theorem set_basis_inds_from_mask_spec (s : EstState) (m : BoolMask) :
    (set_basis_inds_from_mask s m).1.basis_inds = basis_inds_from_mask m ∧
    (set_basis_inds_from_mask s m).1.D = s.D ∧
    (set_basis_inds_from_mask s m).1.N_basis = s.N_basis ∧
    (set_basis_inds_from_mask s m).1.N_data = s.N_data ∧
    (set_basis_inds_from_mask s m).1.beta = s.beta :=
  ⟨rfl, rfl, rfl, rfl, rfl⟩

/-- C2: selecting column `m_basis_inds[idx_l]` of `compute_G_mn()` at row
`idx_k` yields exactly the `(idx_k, idx_l)` entry of `compute_G_mm()`:
`subsample_G_mm_from_G_mn(compute_G_mn())` equals `compute_G_mm()`
element-wise (here proved for all index pairs, in particular all pairs
below `system_size`). -/
theorem subsample_G_mm_eq_compute_G_mm (K : KernelService) (s : EstState)
    (idx_k idx_l : ℕ) :
    subsample_G_mm_from_G_mn s (compute_G_mn K s) idx_k idx_l =
      compute_G_mm K s idx_k idx_l :=
  rfl

/-- C5: if the kernel service is symmetric
(`dx_dy_component(b, a, j, i) = dx_dy_component(a, b, i, j)` for all
arguments), then `compute_G_mm()` is a symmetric matrix. -/
theorem compute_G_mm_symmetric (K : KernelService) (s : EstState)
    (hK : ∀ a b i j, K.dx_dy_component b a j i = K.dx_dy_component a b i j)
    (k l : ℕ) :
    compute_G_mm K s k l = compute_G_mm K s l k := by
  unfold compute_G_mm
  exact (hK _ _ _ _).symm

/-- Witness for C5: the example kernel is symmetric and the example
state's `G_mm` agrees at the (0, 1) and (1, 0) entries. -/
theorem compute_G_mm_symmetric_witness :
    compute_G_mm exampleKernel exampleState 0 1 =
      compute_G_mm exampleKernel exampleState 1 0 :=
  compute_G_mm_symmetric exampleKernel exampleState
    (fun a b i j => by simp [exampleKernel]; ring) 0 1

/-- Folding addition of `f` over a list starting from `a` is `a` plus the
sum of the mapped list. -/
theorem foldl_add_eq_sum (f : ℕ → ℚ) (l : List ℕ) (a : ℚ) :
    l.foldl (fun acc i => acc + f i) a = a + (l.map f).sum := by
  induction l generalizing a with
  | nil => simp
  | cons x xs ih => simp [ih, add_assoc]

/-- C8: `log_pdf(query)` equals the sum over the active basis components
`k` (each mapped via `idx_to_ai` to basis point `m_basis_inds[k] / D` and
dimension `m_basis_inds[k] % D`) of
`beta[k] * dx_component(point, query, dim)` — a sum of `system_size`
terms, one per active component. -/
theorem log_pdf_spec (K : KernelService) (s : EstState) (idx_test : ℕ) :
    log_pdf K s idx_test =
      ((List.range (get_system_size s)).map (fun k =>
        s.beta k * K.dx_component ((s.basis_inds.getD k 0) / s.D) idx_test
          ((s.basis_inds.getD k 0) % s.D))).sum := by
  unfold log_pdf
  simp only [idx_to_ai]
  rw [foldl_add_eq_sum (fun k =>
    s.beta k * K.dx_component ((s.basis_inds.getD k 0) / s.D) idx_test
      ((s.basis_inds.getD k 0) % s.D))]
  simp

/-- C10: every gradient entry whose dimension index is not the dimension
component of any active basis index is zero. -/
theorem grad_inactive_dim_zero (K : KernelService) (s : EstState)
    (idx_test p : ℕ) (h : ∀ l ∈ s.basis_inds, l % s.D ≠ p) :
    grad K s idx_test p = 0 := by
  unfold grad
  apply List.sum_eq_zero
  intro x hx
  simp only [List.mem_map, List.mem_range] at hx
  obtain ⟨idx_l, hlt, rfl⟩ := hx
  have hlt' : idx_l < s.basis_inds.length := hlt
  have hmem : s.basis_inds.getD idx_l 0 ∈ s.basis_inds := by
    rw [List.getD_eq_getElem s.basis_inds 0 hlt']
    exact List.getElem_mem hlt'
  simp only [idx_to_ai]
  rw [if_neg (h _ hmem)]

/-- Witness for C10: in the example state with `D = 2` restricted to
component `(0, 0)` only, dimension 1 of the gradient is zero. -/
theorem grad_inactive_dim_zero_witness :
    grad exampleKernel
      { D := 2, N_basis := 1, N_data := 1, basis_inds := [0],
        beta := fun _ => 1 } 5 1 = 0 :=
  grad_inactive_dim_zero exampleKernel
    { D := 2, N_basis := 1, N_data := 1, basis_inds := [0],
      beta := fun _ => 1 } 5 1 (by decide)

/-- The flat-index encoding is injective: equal quotients and equal
remainders force equal indices. -/
theorem div_mod_inj {D k l : ℕ} (h1 : k / D = l / D) (h2 : k % D = l % D) :
    k = l := by
  have hk := Nat.div_add_mod k D
  rw [h1, h2, Nat.div_add_mod] at hk
  exact hk.symm

/-- Summing an indicator of a single in-range position over `range n`
yields the indicated value. -/
theorem sum_range_ite_eq (n i : ℕ) (hi : i < n) (c : ℚ) :
    ((List.range n).map (fun k => if k = i then c else 0)).sum = c := by
  induction n with
  | zero => exact absurd hi (Nat.not_lt_zero i)
  | succ m ih =>
    rw [List.range_succ, List.map_append, List.sum_append]
    rcases Nat.lt_or_ge i m with h | h
    · rw [ih h]
      simp [Nat.ne_of_gt h]
    · have him : i = m := by omega
      subst him
      have hzero : ((List.range i).map (fun k => if k = i then c else 0)).sum = 0 := by
        apply List.sum_eq_zero
        intro x hx
        simp only [List.mem_map, List.mem_range] at hx
        obtain ⟨k, hk, rfl⟩ := hx
        rw [if_neg (Nat.ne_of_lt hk)]
      rw [hzero]
      simp

/-- If no position in `ps` writes dimension `j` for point `a`, the beta
slice fold leaves entry `j` of the accumulator unchanged. -/
theorem foldl_beta_slice_no_writer (s : EstState) (a j : ℕ) (ps : List ℕ)
    (v : ℕ → ℚ)
    (h : ∀ k ∈ ps, ¬((s.basis_inds.getD k 0) / s.D = a ∧
      (s.basis_inds.getD k 0) % s.D = j)) :
    (ps.foldl (beta_slice_step s a) v) j = v j := by
  induction ps generalizing v with
  | nil => rfl
  | cons k ps ih =>
    rw [List.foldl_cons,
      ih _ (fun x hx => h x (List.mem_cons_of_mem _ hx))]
    simp only [beta_slice_step, idx_to_ai]
    by_cases hpt : a ≠ s.basis_inds.getD k 0 / s.D
    · rw [if_pos hpt]
    · rw [if_neg hpt]
      push_neg at hpt
      have hdim : s.basis_inds.getD k 0 % s.D ≠ j :=
        fun hd => h k (List.mem_cons_self _ _) ⟨hpt.symm, hd⟩
      exact Function.update_noteq (Ne.symm hdim) _ _

/-- If `k0` is the unique position in `ps` writing dimension `j` for point
`a`, the beta slice fold ends with `beta[k0]` at entry `j`. -/
theorem foldl_beta_slice_writer (s : EstState) (a j : ℕ) (ps : List ℕ)
    (v : ℕ → ℚ) (k0 : ℕ) (hnd : ps.Nodup) (hmem : k0 ∈ ps)
    (hpt : (s.basis_inds.getD k0 0) / s.D = a)
    (hdim : (s.basis_inds.getD k0 0) % s.D = j)
    (huniq : ∀ k ∈ ps, ((s.basis_inds.getD k 0) / s.D = a ∧
      (s.basis_inds.getD k 0) % s.D = j) → k = k0) :
    (ps.foldl (beta_slice_step s a) v) j = s.beta k0 := by
  revert hnd hmem huniq
  induction ps generalizing v with
  | nil => intro _ hmem _; cases hmem
  | cons k ps ih =>
    intro hnd hmem huniq
    rw [List.foldl_cons]
    rcases List.mem_cons.mp hmem with rfl | hmem'
    · have hnotin : k0 ∉ ps := (List.nodup_cons.mp hnd).1
      rw [foldl_beta_slice_no_writer s a j ps _ (fun x hx hw =>
        hnotin (huniq x (List.mem_cons_of_mem _ hx) hw ▸ hx))]
      simp only [beta_slice_step, idx_to_ai]
      rw [if_neg (fun hne => hne hpt.symm), hdim, Function.update_same]
    · exact ih _ (List.nodup_cons.mp hnd).2 hmem'
        (fun x hx hw => huniq x (List.mem_cons_of_mem _ hx) hw)

/-- C7: `get_beta_for_basis_point(a)` has, at each dimension `j`, the
value `beta[k]` whenever the active component at position `k` maps to
`(point a, dimension j)`, and the value zero when no active component of
point `a` has dimension `j`. -/
theorem get_beta_for_basis_point_spec (s : EstState)
    (hnd : s.basis_inds.Nodup) (a j : ℕ) :
    (∀ k, k < s.basis_inds.length →
        (s.basis_inds.getD k 0) / s.D = a →
        (s.basis_inds.getD k 0) % s.D = j →
        get_beta_for_basis_point s a j = s.beta k) ∧
    ((∀ k, k < s.basis_inds.length →
        ¬((s.basis_inds.getD k 0) / s.D = a ∧
          (s.basis_inds.getD k 0) % s.D = j)) →
      get_beta_for_basis_point s a j = 0) := by
  constructor
  · intro k hk hpt hdim
    have huniq : ∀ x ∈ List.range (get_system_size s),
        ((s.basis_inds.getD x 0) / s.D = a ∧
          (s.basis_inds.getD x 0) % s.D = j) → x = k := by
      intro x hx hw
      have hx' : x < s.basis_inds.length := List.mem_range.mp hx
      have hveq : s.basis_inds.getD x 0 = s.basis_inds.getD k 0 :=
        div_mod_inj (hw.1.trans hpt.symm) (hw.2.trans hdim.symm)
      have hget : s.basis_inds.get ⟨x, hx'⟩ = s.basis_inds.get ⟨k, hk⟩ := by
        rw [List.getD_eq_getElem s.basis_inds 0 hx',
          List.getD_eq_getElem s.basis_inds 0 hk] at hveq
        exact hveq
      exact congrArg Fin.val (hnd.get_inj_iff.mp hget)
    exact foldl_beta_slice_writer s a j (List.range (get_system_size s))
      _ k (List.nodup_range _) (List.mem_range.mpr hk) hpt hdim huniq
  · intro h
    exact foldl_beta_slice_no_writer s a j (List.range (get_system_size s))
      _ (fun x hx => h x (List.mem_range.mp hx))

/-- Witness for C7 at the example state (`D = 2`, components `(0,0)` and
`(1,1)` active): dimension 0 of point 0 carries `beta[0]` and dimension 1
of point 0 is zero. -/
theorem get_beta_for_basis_point_spec_witness :
    (∀ k, k < exampleState.basis_inds.length →
        (exampleState.basis_inds.getD k 0) / exampleState.D = 0 →
        (exampleState.basis_inds.getD k 0) % exampleState.D = 0 →
        get_beta_for_basis_point exampleState 0 0 = exampleState.beta k) ∧
    ((∀ k, k < exampleState.basis_inds.length →
        ¬((exampleState.basis_inds.getD k 0) / exampleState.D = 0 ∧
          (exampleState.basis_inds.getD k 0) % exampleState.D = 0)) →
      get_beta_for_basis_point exampleState 0 0 = 0) :=
  get_beta_for_basis_point_spec exampleState (by decide) 0 0

/-- C6: entry `i` of `hessian_diag(query)` equals entry `(i, i)` of
`hessian(query)`, for every query, every dimension, every beta and every
duplicate-free active basis index set. -/
theorem hessian_diag_eq_hessian (K : KernelService) (s : EstState)
    (idx_test p : ℕ) (hnd : s.basis_inds.Nodup) :
    hessian_diag K s idx_test p = hessian K s idx_test p p := by
  unfold hessian hessian_diag
  congr 1
  apply List.map_congr_left
  intro idx_l hl
  have hl' : idx_l < s.basis_inds.length := List.mem_range.mp hl
  simp only [idx_to_ai]
  by_cases hp : s.basis_inds.getD idx_l 0 % s.D = p
  · rw [if_pos hp, if_pos hp]
    symm
    have step1 : ∀ idx_k ∈ List.range (get_system_size s),
        (if s.basis_inds.getD idx_l 0 / s.D = s.basis_inds.getD idx_k 0 / s.D ∧
            s.basis_inds.getD idx_k 0 % s.D = p then
          K.dx_i_dx_j_dx_k_dot_vec_component (s.basis_inds.getD idx_l 0 / s.D)
            idx_test
            (get_beta_for_basis_point s (s.basis_inds.getD idx_l 0 / s.D))
            (s.basis_inds.getD idx_l 0 % s.D)
            (s.basis_inds.getD idx_k 0 % s.D)
        else 0) =
        (if idx_k = idx_l then
          K.dx_i_dx_j_dx_k_dot_vec_component (s.basis_inds.getD idx_l 0 / s.D)
            idx_test
            (get_beta_for_basis_point s (s.basis_inds.getD idx_l 0 / s.D))
            (s.basis_inds.getD idx_l 0 % s.D)
            (s.basis_inds.getD idx_l 0 % s.D)
        else 0) := by
      intro idx_k hk
      have hk' : idx_k < s.basis_inds.length := List.mem_range.mp hk
      by_cases hc : s.basis_inds.getD idx_l 0 / s.D =
          s.basis_inds.getD idx_k 0 / s.D ∧
          s.basis_inds.getD idx_k 0 % s.D = p
      · have hy : s.basis_inds.getD idx_k 0 = s.basis_inds.getD idx_l 0 :=
          div_mod_inj hc.1.symm (hc.2.trans hp.symm)
        have hget : s.basis_inds.get ⟨idx_k, hk'⟩ =
            s.basis_inds.get ⟨idx_l, hl'⟩ := by
          have hy2 := hy
          rw [List.getD_eq_getElem s.basis_inds 0 hk',
            List.getD_eq_getElem s.basis_inds 0 hl'] at hy2
          exact hy2
        have hkl : idx_k = idx_l :=
          congrArg Fin.val (hnd.get_inj_iff.mp hget)
        rw [if_pos hc, if_pos hkl, hy]
      · have hkl : idx_k ≠ idx_l := by
          intro he
          rw [he] at hc
          exact hc ⟨rfl, hp⟩
        rw [if_neg hc, if_neg hkl]
    rw [List.map_congr_left step1]
    exact sum_range_ite_eq (get_system_size s) idx_l hl' _
  · rw [if_neg hp, if_neg hp]

/-- Witness for C6 at the example state (`Nodup [0, 3]`), query index 7,
dimension 0. -/
theorem hessian_diag_eq_hessian_witness :
    hessian_diag exampleKernel exampleState 7 0 =
      hessian exampleKernel exampleState 7 0 0 :=
  hessian_diag_eq_hessian exampleKernel exampleState 7 0 (by decide)

/-- C1 (divergence witness): at a state where the basis is data point 0
only (`D = 1`, `N_data = 2`, full mask over the basis) and the kernel's
`dx_dy_dy_component` is constantly 1, `compute_h()` does NOT equal the
claimed vector whose entry `k` is `(1/N_data)` times the sum of
`dx_dy_dy_component(a, b, i, j)` over all data points `b < N_data` and all
dimensions `j < D`: the code yields `[1/2]`, the claimed formula `[1]`. -/
theorem compute_h_code_bug_eval :
    compute_h exampleKernel exampleStateH = [(1 : ℚ)/2] ∧
      compute_h exampleKernel exampleStateH ≠
        (List.range (get_system_size exampleStateH)).map (fun k =>
          (((List.range exampleStateH.N_data).map (fun b =>
            ((List.range exampleStateH.D).map (fun j =>
              exampleKernel.dx_dy_dy_component
                ((exampleStateH.basis_inds.getD k 0) / exampleStateH.D) b
                ((exampleStateH.basis_inds.getD k 0) % exampleStateH.D)
                j)).sum)).sum) / (exampleStateH.N_data : ℚ)) := by
  have h1 : compute_h exampleKernel exampleStateH = [(1 : ℚ)/2] := by
    norm_num [compute_h, exampleKernel, exampleStateH, idx_to_ai,
      List.range_succ]
  refine ⟨h1, ?_⟩
  rw [h1]
  intro hEq
  have h2 := congrArg (fun l => l.getD 0 0) hEq
  norm_num [exampleKernel, exampleStateH, get_system_size, List.range_succ] at h2

end NystromDImpl
